import Mathlib

/-!
Verification development for raylab's replay-buffer and target-network
subsystem.

The replay buffer (`raylab.utils.replay_buffer`) and the target-network
synchronizer (`TargetNetworksMixin`) are exercised by the repository's
tests but their implementation modules are not part of the source tree
here, so they are modelled from the specification (each such definition
is marked `Modelled from the spec:`).  The SOP critic-target computation
(`SOPTorchPolicy._compute_critic_targets`) and trajectory postprocessing
(`TorchPolicy.postprocess_trajectory`) are embedded directly from the
source files `raylab/algorithms/sop/sop_policy.py` and
`raylab/policy/torch_policy.py`.
-/

namespace Raylab

/-- Errors raised by the replay buffer, per the spec's error taxonomy. -/
inductive BufErr
  | schemaMismatch
  | emptyBuffer
deriving DecidableEq

/-- Modelled from the spec: a replay buffer (the missing
`raylab.utils.replay_buffer` module) owns one fixed-capacity circular
store per declared field, a scalar `size` (number of valid entries,
saturating at `maxsize`) and a write cursor. -/
structure Buffer (α : Type) where
  maxsize : Nat
  stores : List (String × List α)
  size : Nat
  cursor : Nat
deriving DecidableEq

/-- The declared field names of a buffer, in declaration order. -/
def Buffer.fields {α : Type} (buf : Buffer α) : List String :=
  buf.stores.map Prod.fst

/-- Whether an entry (a field-to-value mapping) binds the key `k`. -/
def hasKey {α : Type} (entry : List (String × α)) (k : String) : Bool :=
  entry.any (fun p => p.1 == k)

/-- The value an entry binds to key `k`, defaulting when absent. -/
def lookupD {α : Type} [Inhabited α] (entry : List (String × α)) (k : String) : α :=
  match entry.find? (fun p => p.1 == k) with
  | some p => p.2
  | none => default

/-- Modelled from the spec: an entry matches the declared schema when it
is missing no declared field and contains no undeclared field. -/
def validEntry {α : Type} (fields : List String) (entry : List (String × α)) : Bool :=
  fields.all (fun f => hasKey entry f) && entry.all (fun p => fields.contains p.1)

/-- Modelled from the spec: a fresh buffer with pre-allocated
fixed-capacity storage (capacity `M`) for every declared field. -/
def freshBuffer (α : Type) [Inhabited α] (M : Nat) (fields : List String) : Buffer α :=
  { maxsize := M
    stores := fields.map (fun f => (f, List.replicate M default))
    size := 0
    cursor := 0 }

/-- Modelled from the spec: `add(entry)` validates the entry against the
declared schema, then (for a non-degenerate buffer) writes the cursor
position for every field, increments the cursor modulo `maxsize` and
grows `size` capped at `maxsize`.  A `maxsize == 0` buffer accepts the
call as a no-op. -/
def Buffer.add {α : Type} [Inhabited α] (buf : Buffer α) (entry : List (String × α)) :
    Except BufErr (Buffer α) :=
  if validEntry buf.fields entry then
    if buf.maxsize = 0 then .ok buf
    else
      .ok { buf with
            stores := buf.stores.map
              (fun fs => (fs.1, fs.2.set buf.cursor (lookupD entry fs.1)))
            size := min (buf.size + 1) buf.maxsize
            cursor := (buf.cursor + 1) % buf.maxsize }
  else .error .schemaMismatch

/-- Contiguous slice assignment: write the values `vs` at consecutive
positions starting at `pos` (out-of-range positions are dropped). -/
def writeSeg {α : Type} : Nat → List α → List α → List α
  | _, [], stor => stor
  | pos, v :: vs, stor => writeSeg (pos + 1) vs (stor.set pos v)

/-- Sequential ring writes: write the values `vs` at consecutive
positions starting at `pos`, each taken modulo `M`. -/
def writeWrap {α : Type} (M : Nat) : Nat → List α → List α → List α
  | _, [], stor => stor
  | pos, v :: vs, stor => writeWrap M (pos + 1) vs (stor.set (pos % M) v)

/-- Modelled from the spec: `add_batch(entries)` validates the full
batch schema before any physical write; then, per field, performs a
vectorized slice assignment, split into a head segment written to
`[cursor, M)` and a tail segment written to `[0, K-(M-cursor))` when the
batch straddles the wraparound boundary (`cursor + K > M`). -/
def Buffer.addBatch {α : Type} [Inhabited α] (buf : Buffer α)
    (entries : List (List (String × α))) : Except BufErr (Buffer α) :=
  if entries.all (fun e => validEntry buf.fields e) then
    if buf.maxsize = 0 then .ok buf
    else
      .ok { buf with
            stores := buf.stores.map (fun fs =>
              (fs.1,
                if buf.cursor + entries.length ≤ buf.maxsize then
                  writeSeg buf.cursor (entries.map (fun e => lookupD e fs.1)) fs.2
                else
                  writeSeg 0
                    ((entries.map (fun e => lookupD e fs.1)).drop (buf.maxsize - buf.cursor))
                    (writeSeg buf.cursor
                      ((entries.map (fun e => lookupD e fs.1)).take (buf.maxsize - buf.cursor))
                      fs.2)))
            size := min (buf.size + entries.length) buf.maxsize
            cursor := (buf.cursor + entries.length) % buf.maxsize }
  else .error .schemaMismatch

/-- The buffer state after an `add_batch` call as seen by the caller: on
failure the buffer is left exactly as it was. -/
def Buffer.addBatchRun {α : Type} [Inhabited α] (buf : Buffer α)
    (entries : List (List (String × α))) : Buffer α :=
  match buf.addBatch entries with
  | .ok buf2 => buf2
  | .error _ => buf

/-- Modelled from the spec: `all_samples()` returns, for every declared
field, all `size` valid entries in raw physical storage order,
independent of the cursor position. -/
def Buffer.allSamples {α : Type} (buf : Buffer α) : List (String × List α) :=
  buf.stores.map (fun fs => (fs.1, fs.2.take buf.size))

/-- Modelled from the spec: `len(buffer)` is the current `size`. -/
def Buffer.len {α : Type} (buf : Buffer α) : Nat :=
  buf.size

/-- Modelled from the spec: one step of the buffer's explicit seedable
random generator (a linear congruential generator standing in for the
library generator the buffer owns or receives). -/
def lcgNext (g : Nat) : Nat :=
  (1103515245 * g + 12345) % 2147483648

/-- Modelled from the spec: draw `n` indices uniformly with replacement
from `[0, size)` using only the explicit generator state `g`. -/
def drawIndices (size g : Nat) : Nat → List Nat
  | 0 => []
  | n + 1 => (lcgNext g % size) :: drawIndices size (lcgNext g) n

/-- Modelled from the spec: `sample(batch_size, generator)` fails with
`EmptyBufferError` on an empty buffer, otherwise gathers the randomly
drawn rows for every declared field. -/
def Buffer.sample {α : Type} [Inhabited α] (buf : Buffer α) (batchSize : Nat) (g : Nat) :
    Except BufErr (List (String × List α)) :=
  if buf.size = 0 then .error .emptyBuffer
  else
    let idxs := drawIndices buf.size g batchSize
    .ok (buf.stores.map (fun fs => (fs.1, idxs.map (fun i => fs.2.getD i default))))

/-- Buffer states reachable from a fresh buffer by `add` / `add_batch`. -/
inductive Reachable {α : Type} [Inhabited α] : Buffer α → Prop
  | fresh (M : Nat) (fields : List String) : Reachable (freshBuffer α M fields)
  | addStep {buf buf2 : Buffer α} (entry : List (String × α)) :
      Reachable buf → buf.add entry = .ok buf2 → Reachable buf2
  | addBatchStep {buf buf2 : Buffer α} (entries : List (List (String × α))) :
      Reachable buf → buf.addBatch entries = .ok buf2 → Reachable buf2

/-- Structural well-formedness of a buffer state: every field's store
has physical length `maxsize`, `size` never exceeds `maxsize`, and the
cursor is a valid write position. -/
def WellFormed {α : Type} (buf : Buffer α) : Prop :=
  (∀ fs ∈ buf.stores, fs.2.length = buf.maxsize) ∧
  buf.size ≤ buf.maxsize ∧
  (buf.maxsize = 0 → buf.cursor = 0 ∧ buf.size = 0) ∧
  (0 < buf.maxsize → buf.cursor < buf.maxsize)

/-- The field name used in the spec's concrete ring-buffer scenario. -/
def obsField : String :=
  "obs"

/-- The buffer state reached in the spec's concrete scenario: maxsize 4,
one scalar field `obs`, after inserting 1,2,3,4,5 one at a time. -/
def scenarioBuf : Buffer Nat :=
  Buffer.mk 4 [(obsField, [5, 2, 3, 4])] 4 1

/-! ## Target network synchronizer

Modelled from the spec: `TargetNetworksMixin.update_targets` is not part
of the source tree here, only its caller
(`SOPTorchPolicy.learn_on_batch`).  A parameter set is a list of
tensors, each a flat list of rational elements. -/

/-- Modelled from the spec: the Polyak rule.  For every positionally
matching parameter pair, `p_target ← tau * p_live + (1 - tau) * p_target`
element-wise. -/
def polyakUpdate (tau : Rat) (live target : List (List Rat)) : List (List Rat) :=
  List.zipWith (fun l t => List.zipWith (fun x y => tau * x + (1 - tau) * y) l t) live target

/-- The per-tensor shapes of a parameter set (lengths of the flattened
tensors). -/
def paramShapes (ps : List (List Rat)) : List Nat :=
  ps.map List.length

/-- The state of the target synchronizer: a live parameter set and its
slowly-tracking target copy. -/
structure SyncState where
  live : List (List Rat)
  target : List (List Rat)

/-- Operations acting on the synchronizer state: a gradient step, which
may replace the live parameters arbitrarily, or a Polyak target update
with mixing coefficient `tau`. -/
inductive SyncOp
  | gradStep (f : List (List Rat) → List (List Rat))
  | polyak (tau : Rat)

/-- Whether an operation is a Polyak target update. -/
def SyncOp.isPolyak : SyncOp → Bool
  | .polyak _ => true
  | .gradStep _ => false

/-- Modelled from the spec: gradient steps touch only the live
parameters; only `update` (the Polyak rule) writes the targets. -/
def syncStep (s : SyncState) : SyncOp → SyncState
  | .gradStep f => { s with live := f s.live }
  | .polyak tau => { s with target := polyakUpdate tau s.live s.target }

/-! ## SOP module construction

`SOPTorchPolicy.make_module` (src/raylab/algorithms/sop/sop_policy.py):
builds one critic, one target critic, a second pair when
`clipped_double_q` is set, then copies the critics' state dict into the
target critics. -/

/-- The per-critic parameter shapes of a critic ensemble. -/
def criticShapes (cs : List (List (List Rat))) : List (List Nat) :=
  cs.map paramShapes

/-- `load_state_dict`: replace the destination ensemble's parameter
values with the source's when the shapes line up, embedding torch's
state-dict copy used at line 48 of sop_policy.py. -/
def loadCritics (dst src : List (List (List Rat))) : List (List (List Rat)) :=
  if criticShapes dst = criticShapes src then src else dst

/-- The critic and target-critic ensembles of the SOP module. -/
structure SOPModule where
  critics : List (List (List Rat))
  targetCritics : List (List (List Rat))

/-- `SOPTorchPolicy.make_module`, restricted to the critic ensembles:
`make_critic()` is called once for `critics` and once for
`target_critics` (twice each under `clipped_double_q`, in the call order
of the source), then `target_critics.load_state_dict(critics.state_dict())`.
`mkCritic i` stands for the parameters produced by the `i`-th
`make_critic()` call. -/
def makeModule (clippedDoubleQ : Bool) (mkCritic : Nat → List (List Rat)) : SOPModule :=
  let critics := if clippedDoubleQ then [mkCritic 0, mkCritic 2] else [mkCritic 0]
  let targets := if clippedDoubleQ then [mkCritic 1, mkCritic 3] else [mkCritic 1]
  { critics := critics, targetCritics := loadCritics targets critics }

/-! ## SOP critic targets

`SOPTorchPolicy._compute_critic_targets`
(src/raylab/algorithms/sop/sop_policy.py lines 209-219), embedded over
batches as lists: observations of type `O`, actions of type `A`, critics
as functions to rational values. -/

/-- Three-way elementwise zip, the shape of `torch.where` over three
equal-length batch tensors. -/
def zip3With {α β γ δ : Type} (f : α → β → γ → δ) : List α → List β → List γ → List δ
  | a :: as, b :: bs, c :: cs => f a b c :: zip3With f as bs cs
  | _, _, _ => []

/-- `torch.cat([m(next_obs, next_acts) for m in target_critics], dim=-1)`:
one row per transition holding every critic's value. -/
def catCriticVals {O A : Type} (critics : List (O → A → Rat)) (obs : List O) (acts : List A) :
    List (List Rat) :=
  List.zipWith (fun o a => critics.map (fun m => m o a)) obs acts

/-- `.min(dim=-1)` over one row of concatenated critic values. -/
def rowMin : List Rat → Rat
  | [] => 0
  | x :: xs => xs.foldl min x

/-- `SOPTorchPolicy._compute_critic_targets`:
`next_acts = target_policy(next_obs)`;
`next_vals = cat([m(next_obs, next_acts) for m in target_critics]).min(-1)`;
`return torch.where(dones, rewards, rewards + gamma * next_vals)`. -/
def computeCriticTargets {O A : Type} (gamma : Rat) (targetPolicy : O → A)
    (targetCritics : List (O → A → Rat)) (rewards : List Rat) (nextObs : List O)
    (dones : List Bool) : List Rat :=
  let nextActs := nextObs.map targetPolicy
  let nextVals := (catCriticVals targetCritics nextObs nextActs).map rowMin
  let bootstrapped := List.zipWith (fun r v => r + gamma * v) rewards nextVals
  zip3With (fun d r b => if d then r else b) dones rewards bootstrapped

/-! ## Trajectory postprocessing

`TorchPolicy.postprocess_trajectory`
(src/raylab/policy/torch_policy.py lines 172-180). -/

/-- The slice of a step's info dict that the postprocessing reads:
the truthiness of `info.get("TimeLimit.truncated")` (absent key means
falsy). -/
structure StepInfo where
  timeLimitTruncated : Bool
deriving DecidableEq

/-- A sample batch as seen by `postprocess_trajectory`: the done-flag
column, the infos column, and every other field bundled opaquely in
`rest`. -/
structure SampleBatch (ε : Type) where
  dones : List Bool
  infos : List StepInfo
  rest : ε
deriving DecidableEq

/-- `TorchPolicy.postprocess_trajectory`: when the env is not configured
as time-aware, read `hit_limit` from the final info dict and `env_done`
from the final done flag, and set the final done flag to
`False if hit_limit else env_done`; otherwise return the batch as is. -/
def postprocessTrajectory {ε : Type} (timeAware : Bool) (b : SampleBatch ε) : SampleBatch ε :=
  if timeAware = false then
    { b with
      dones := b.dones.set (b.dones.length - 1)
        (if (b.infos.getLast?.map StepInfo.timeLimitTruncated).getD false then false
         else b.dones.getLastD false) }
  else b

/-! ## Lemmas about segment and ring writes -/

theorem writeSeg_length {α : Type} (vs : List α) :
    ∀ (pos : Nat) (stor : List α), (writeSeg pos vs stor).length = stor.length := by
  induction vs with
  | nil => intro pos stor; rfl
  | cons v vs ih => intro pos stor; simp only [writeSeg, ih, List.length_set]

theorem writeWrap_length {α : Type} (M : Nat) (vs : List α) :
    ∀ (pos : Nat) (stor : List α), (writeWrap M pos vs stor).length = stor.length := by
  induction vs with
  | nil => intro pos stor; rfl
  | cons v vs ih => intro pos stor; simp only [writeWrap, ih, List.length_set]

theorem writeWrap_mod {α : Type} (M : Nat) (vs : List α) :
    ∀ (pos : Nat) (stor : List α), writeWrap M (pos % M) vs stor = writeWrap M pos vs stor := by
  induction vs with
  | nil => intro pos stor; rfl
  | cons v vs ih =>
    intro pos stor
    have hmm : pos % M % M = pos % M := Nat.mod_mod_of_dvd pos dvd_rfl
    have hstep : (pos % M + 1) % M = (pos + 1) % M := by
      conv_lhs => rw [Nat.add_mod]
      conv_rhs => rw [Nat.add_mod]
      rw [hmm]
    calc writeWrap M (pos % M) (v :: vs) stor
        = writeWrap M (pos % M + 1) vs (stor.set (pos % M % M) v) := rfl
      _ = writeWrap M (pos % M + 1) vs (stor.set (pos % M) v) := by rw [hmm]
      _ = writeWrap M ((pos % M + 1) % M) vs (stor.set (pos % M) v) := (ih _ _).symm
      _ = writeWrap M ((pos + 1) % M) vs (stor.set (pos % M) v) := by rw [hstep]
      _ = writeWrap M (pos + 1) vs (stor.set (pos % M) v) := ih _ _

theorem writeWrap_append {α : Type} (M : Nat) (xs ys : List α) :
    ∀ (pos : Nat) (stor : List α),
      writeWrap M pos (xs ++ ys) stor
        = writeWrap M (pos + xs.length) ys (writeWrap M pos xs stor) := by
  induction xs with
  | nil => intro pos stor; simp [writeWrap]
  | cons x xs ih =>
    intro pos stor
    show writeWrap M (pos + 1) (xs ++ ys) (stor.set (pos % M) x) = _
    rw [ih]
    rw [show pos + 1 + xs.length = pos + (x :: xs).length from by simp; omega]
    rfl

theorem writeWrap_eq_writeSeg {α : Type} (M : Nat) (vs : List α) :
    ∀ (pos : Nat) (stor : List α), pos + vs.length ≤ M →
      writeWrap M pos vs stor = writeSeg pos vs stor := by
  induction vs with
  | nil => intro pos stor _; rfl
  | cons v vs ih =>
    intro pos stor h
    simp only [List.length_cons] at h
    have hp : pos < M := by omega
    show writeWrap M (pos + 1) vs (stor.set (pos % M) v) = writeSeg (pos + 1) vs (stor.set pos v)
    rw [Nat.mod_eq_of_lt hp]
    exact ih (pos + 1) _ (by omega)

theorem splitWrite_eq_writeWrap {α : Type} (M c : Nat) (vals stor : List α)
    (hc : c < M) (hK : c + vals.length ≤ 2 * M) :
    (if c + vals.length ≤ M then writeSeg c vals stor
     else writeSeg 0 (vals.drop (M - c)) (writeSeg c (vals.take (M - c)) stor))
      = writeWrap M c vals stor := by
  by_cases h : c + vals.length ≤ M
  · rw [if_pos h, writeWrap_eq_writeSeg M vals c stor h]
  · rw [if_neg h]
    have hlen : (vals.take (M - c)).length = M - c := by
      simp only [List.length_take]
      omega
    have hdlen : (vals.drop (M - c)).length = vals.length - (M - c) := by
      simp only [List.length_drop]
    conv_rhs => rw [(List.take_append_drop (M - c) vals).symm]
    rw [writeWrap_append, hlen, show c + (M - c) = M from by omega]
    rw [writeWrap_eq_writeSeg M _ c stor (by rw [hlen]; omega)]
    have h0 : writeWrap M M (vals.drop (M - c)) (writeSeg c (vals.take (M - c)) stor)
        = writeWrap M 0 (vals.drop (M - c)) (writeSeg c (vals.take (M - c)) stor) := by
      conv_rhs => rw [show (0 : Nat) = M % M from (Nat.mod_self M).symm]
      rw [writeWrap_mod]
    rw [h0, writeWrap_eq_writeSeg M _ 0 _ (by rw [hdlen]; omega)]

/-! ## Characterization of sequential insertion -/

theorem fields_of_mapped {α : Type} (stores : List (String × List α))
    (g : String × List α → List α) :
    (stores.map (fun fs => (fs.1, g fs))).map Prod.fst = stores.map Prod.fst := by
  rw [List.map_map]
  rfl

theorem add_ok {α : Type} [Inhabited α] (buf : Buffer α) (entry : List (String × α))
    (hv : validEntry buf.fields entry = true) (hM : 0 < buf.maxsize) :
    buf.add entry = .ok
      { maxsize := buf.maxsize
        stores := buf.stores.map (fun fs => (fs.1, fs.2.set buf.cursor (lookupD entry fs.1)))
        size := min (buf.size + 1) buf.maxsize
        cursor := (buf.cursor + 1) % buf.maxsize } := by
  unfold Buffer.add
  rw [if_pos hv, if_neg (by omega : ¬ buf.maxsize = 0)]

theorem foldlM_add_eq {α : Type} [Inhabited α] (entries : List (List (String × α))) :
    ∀ (buf : Buffer α), 0 < buf.maxsize → buf.cursor < buf.maxsize → buf.size ≤ buf.maxsize →
      (∀ e ∈ entries, validEntry buf.fields e = true) →
      List.foldlM (fun b e => Buffer.add b e) buf entries
        = .ok { maxsize := buf.maxsize
                stores := buf.stores.map (fun fs =>
                  (fs.1, writeWrap buf.maxsize buf.cursor
                           (entries.map (fun e => lookupD e fs.1)) fs.2))
                size := min (buf.size + entries.length) buf.maxsize
                cursor := (buf.cursor + entries.length) % buf.maxsize } := by
  induction entries with
  | nil =>
    intro buf hM hc hs _
    obtain ⟨m, st, sz, cu⟩ := buf
    simp only [Buffer.fields] at *
    show Except.ok (Buffer.mk m st sz cu) = _
    simp [writeWrap, Nat.mod_eq_of_lt hc, Nat.min_eq_left hs]
  | cons e es ih =>
    intro buf hM hc hs hv
    obtain ⟨m, st, sz, cu⟩ := buf
    simp only at hM hc hs
    have hve : validEntry (Buffer.mk m st sz cu).fields e = true := hv e (by simp)
    rw [List.foldlM_cons, add_ok _ e hve hM]
    show List.foldlM (fun b e => Buffer.add b e)
      (Buffer.mk m (st.map (fun fs => (fs.1, fs.2.set cu (lookupD e fs.1))))
        (min (sz + 1) m) ((cu + 1) % m)) es = _
    rw [ih _ hM (Nat.mod_lt _ hM) (Nat.min_le_right _ _) ?hvs]
    case hvs =>
      intro e2 he2
      have : Buffer.fields (Buffer.mk m
          (st.map (fun fs => (fs.1, fs.2.set cu (lookupD e fs.1))))
          (min (sz + 1) m) ((cu + 1) % m)) = Buffer.fields (Buffer.mk m st sz cu) := by
        simp only [Buffer.fields]
        exact fields_of_mapped st _
      rw [this]
      exact hv e2 (by simp [he2])
    congr 1
    simp only [Buffer.mk.injEq]
    refine ⟨trivial, ?_, ?_, ?_⟩
    · rw [List.map_map]
      apply List.map_congr_left
      intro fs _
      simp only [Function.comp_apply]
      have hunf : writeWrap m cu ((e :: es).map (fun e2 => lookupD e2 fs.1)) fs.2
          = writeWrap m (cu + 1) (es.map (fun e2 => lookupD e2 fs.1))
              (fs.2.set (cu % m) (lookupD e fs.1)) := rfl
      rw [hunf, Nat.mod_eq_of_lt hc, writeWrap_mod]
    · simp only [List.length_cons]
      omega
    · simp only [List.length_cons]
      have hmodeq : ((cu + 1) % m + es.length) % m = ((cu + 1) + es.length) % m :=
        Nat.ModEq.add_right es.length (Nat.mod_modEq (cu + 1) m)
      rw [hmodeq, show cu + 1 + es.length = cu + (es.length + 1) from by omega]

/-! ## Well-formedness of reachable buffer states -/

theorem wf_fresh {α : Type} [Inhabited α] (M : Nat) (fields : List String) :
    WellFormed (freshBuffer α M fields) := by
  refine ⟨?_, ?_, ?_, ?_⟩
  · intro fs hfs
    simp only [freshBuffer, List.mem_map] at hfs
    obtain ⟨f, _, rfl⟩ := hfs
    simp [freshBuffer]
  · simp [freshBuffer]
  · intro _
    exact ⟨rfl, rfl⟩
  · intro h
    simpa [freshBuffer] using h

theorem wf_add {α : Type} [Inhabited α] {buf buf2 : Buffer α} {entry : List (String × α)}
    (hwf : WellFormed buf) (h : buf.add entry = .ok buf2) : WellFormed buf2 := by
  unfold Buffer.add at h
  split at h
  · split at h
    · injection h with h2
      subst h2
      exact hwf
    · case isFalse hM0 =>
      injection h with h2
      subst h2
      obtain ⟨h1, hsz, _, _⟩ := hwf
      refine ⟨?_, ?_, ?_, ?_⟩
      · intro fs hfs
        simp only [List.mem_map] at hfs
        obtain ⟨fs0, hfs0, rfl⟩ := hfs
        simp [List.length_set, h1 fs0 hfs0]
      · exact Nat.min_le_right _ _
      · intro h0
        exact absurd h0 hM0
      · intro hp
        exact Nat.mod_lt _ hp
  · exact Except.noConfusion h

theorem wf_addBatch {α : Type} [Inhabited α] {buf buf2 : Buffer α}
    {entries : List (List (String × α))}
    (hwf : WellFormed buf) (h : buf.addBatch entries = .ok buf2) : WellFormed buf2 := by
  unfold Buffer.addBatch at h
  split at h
  · split at h
    · injection h with h2
      subst h2
      exact hwf
    · case isFalse hM0 =>
      injection h with h2
      subst h2
      obtain ⟨h1, hsz, _, _⟩ := hwf
      refine ⟨?_, ?_, ?_, ?_⟩
      · intro fs hfs
        simp only [List.mem_map] at hfs
        obtain ⟨fs0, hfs0, rfl⟩ := hfs
        have := h1 fs0 hfs0
        simp only
        split
        · rw [writeSeg_length]
          exact this
        · rw [writeSeg_length, writeSeg_length]
          exact this
      · exact Nat.min_le_right _ _
      · intro h0
        exact absurd h0 hM0
      · intro hp
        exact Nat.mod_lt _ hp
  · exact Except.noConfusion h

theorem reachable_wf {α : Type} [Inhabited α] {buf : Buffer α} (h : Reachable buf) :
    WellFormed buf := by
  induction h with
  | fresh M fields => exact wf_fresh M fields
  | addStep entry _ hok ih => exact wf_add ih hok
  | addBatchStep entries _ hok ih => exact wf_addBatch ih hok

theorem addBatch_ok {α : Type} [Inhabited α] (buf : Buffer α)
    (entries : List (List (String × α)))
    (hv : entries.all (fun e => validEntry buf.fields e) = true) (hM : 0 < buf.maxsize) :
    buf.addBatch entries = .ok
      { maxsize := buf.maxsize
        stores := buf.stores.map (fun fs =>
          (fs.1,
            if buf.cursor + entries.length ≤ buf.maxsize then
              writeSeg buf.cursor (entries.map (fun e => lookupD e fs.1)) fs.2
            else
              writeSeg 0
                ((entries.map (fun e => lookupD e fs.1)).drop (buf.maxsize - buf.cursor))
                (writeSeg buf.cursor
                  ((entries.map (fun e => lookupD e fs.1)).take (buf.maxsize - buf.cursor))
                  fs.2)))
        size := min (buf.size + entries.length) buf.maxsize
        cursor := (buf.cursor + entries.length) % buf.maxsize } := by
  unfold Buffer.addBatch
  rw [if_pos hv, if_neg (by omega : ¬ buf.maxsize = 0)]

/-! ## Claim C2: batch-insertion equivalence -/

/-- Claim C2 (amended): for every reachable starting buffer state with
maxsize at least 1 and every schema-valid batch whose tail segment fits
within capacity (cursor + K at most 2*maxsize), `add_batch` produces
exactly the same final buffer (storage contents, size and cursor) as K
sequential `add` calls. -/
theorem C2_batch_equivalence (buf : Buffer Nat) (entries : List (List (String × Nat)))
    (hr : Reachable buf) (hM : 1 ≤ buf.maxsize) (hK : 1 ≤ entries.length)
    (hv : ∀ e ∈ entries, validEntry buf.fields e = true)
    (htail : buf.cursor + entries.length ≤ 2 * buf.maxsize) :
    buf.addBatch entries = List.foldlM (fun b e => Buffer.add b e) buf entries := by
  obtain ⟨hlen, hsz, _, hcur⟩ := reachable_wf hr
  have hc : buf.cursor < buf.maxsize := hcur hM
  rw [foldlM_add_eq entries buf hM hc hsz hv]
  rw [addBatch_ok buf entries (List.all_eq_true.mpr hv) hM]
  congr 1
  simp only [Buffer.mk.injEq]
  refine ⟨trivial, ?_, trivial, trivial⟩
  apply List.map_congr_left
  intro fs _
  show (fs.1, _) = (fs.1, _)
  congr 1
  rw [show entries.length = (entries.map (fun e => lookupD e fs.1)).length from
    (List.length_map entries _).symm]
  exact splitWrite_eq_writeWrap buf.maxsize buf.cursor
    (entries.map (fun e => lookupD e fs.1)) fs.2 hc (by rw [List.length_map]; omega)

/-- Claim C2, counterexample to the unamended claim: with maxsize 2 and
a fresh buffer, a batch of 5 entries (tail segment of length 5 longer
than the capacity) does not produce the same state as 5 sequential
`add` calls. -/
theorem C2_counterexample :
    ¬ ((freshBuffer Nat 2 [obsField]).addBatch
          [[(obsField, 1)], [(obsField, 2)], [(obsField, 3)], [(obsField, 4)], [(obsField, 5)]]
        = List.foldlM (fun b e => Buffer.add b e) (freshBuffer Nat 2 [obsField])
          [[(obsField, 1)], [(obsField, 2)], [(obsField, 3)], [(obsField, 4)], [(obsField, 5)]]) := by
  intro h
  have h1 : (freshBuffer Nat 2 [obsField]).addBatch
      [[(obsField, 1)], [(obsField, 2)], [(obsField, 3)], [(obsField, 4)], [(obsField, 5)]]
      = .ok (Buffer.mk 2 [(obsField, [3, 4])] 2 1) := rfl
  have h2 : List.foldlM (fun b e => Buffer.add b e) (freshBuffer Nat 2 [obsField])
      [[(obsField, 1)], [(obsField, 2)], [(obsField, 3)], [(obsField, 4)], [(obsField, 5)]]
      = .ok (Buffer.mk 2 [(obsField, [5, 4])] 2 1) := rfl
  rw [h1, h2] at h
  injection h with h3
  have h4 := congrArg Buffer.stores h3
  exact absurd h4 (by decide)

/-- Claim C2, witness: the amended equivalence at a concrete input. -/
theorem C2_batch_equivalence_witness :
    (freshBuffer Nat 3 [obsField]).addBatch [[(obsField, 7)], [(obsField, 8)]]
      = List.foldlM (fun b e => Buffer.add b e) (freshBuffer Nat 3 [obsField])
          [[(obsField, 7)], [(obsField, 8)]] :=
  C2_batch_equivalence _ _ (Reachable.fresh 3 [obsField]) (by decide) (by decide)
    (by decide) (by decide)

/-! ## Claim C1: ring invariant -/

theorem fields_fresh {α : Type} [Inhabited α] (M : Nat) (fields : List String) :
    (freshBuffer α M fields).fields = fields := by
  simp only [freshBuffer, Buffer.fields, List.map_map]
  exact List.map_id fields

theorem writeWrap_lastM {α : Type} (M : Nat) (hM : 0 < M) (vs : List α) :
    ∀ (stor : List α), stor.length = M →
      ∀ i, i < vs.length → vs.length - i ≤ M →
        (writeWrap M 0 vs stor)[i % M]? = vs[i]? := by
  induction vs using List.reverseRecOn with
  | nil =>
    intro stor _ i hi _
    simp at hi
  | append_singleton l a ih =>
    intro stor hstor i hi hle
    have hcat : writeWrap M 0 (l ++ [a]) stor
        = (writeWrap M 0 l stor).set (l.length % M) a := by
      rw [writeWrap_append]
      show writeWrap M (0 + l.length + 1) []
        ((writeWrap M 0 l stor).set ((0 + l.length) % M) a) = _
      simp [writeWrap]
    rw [hcat]
    have hWlen : (writeWrap M 0 l stor).length = M := by
      rw [writeWrap_length, hstor]
    simp only [List.length_append, List.length_cons, List.length_nil] at hi hle
    by_cases hiN : i = l.length
    · subst hiN
      rw [List.getElem?_set_self (by rw [hWlen]; exact Nat.mod_lt _ hM)]
      exact (List.getElem?_concat_length l a).symm
    · have hilt : i < l.length := by omega
      have hne : l.length % M ≠ i % M := by
        intro hEq
        have hdvd : M ∣ l.length - i :=
          (Nat.modEq_iff_dvd' (Nat.le_of_lt hilt)).mp hEq.symm
        have hge := Nat.le_of_dvd (by omega) hdvd
        omega
      rw [List.getElem?_set_ne hne]
      rw [ih stor hstor i hilt (by omega)]
      exact (List.getElem?_append_left hilt).symm

/-- Claim C1: for every maxsize M at least 1, every declared field
schema and every sequence of N schema-valid single-item `add` calls into
a fresh buffer, `len(buffer) = min(N, M)`, the next write position is
`N mod M`, and whenever `N > M` the physical storage of every declared
field holds the last M inserted values in wraparound order (the value an
entry inserted at step `i` binds for that field sits at physical
position `i mod M`); concretely, for maxsize 4 with a scalar field obs
and values 1,2,3,4,5 inserted one at a time, the final physical storage
is `[5,2,3,4]`, `len` is 4 and `all_samples()` for obs is `{2,3,4,5}`
as a set. -/
theorem C1_ring_invariant :
    (∀ (M : Nat) (fields : List String) (entries : List (List (String × Nat)))
        (buf : Buffer Nat),
        1 ≤ M →
        (∀ e ∈ entries, validEntry fields e = true) →
        List.foldlM (fun b e => Buffer.add b e) (freshBuffer Nat M fields) entries = .ok buf →
        buf.len = min entries.length M ∧
        buf.cursor = entries.length % M ∧
        (M < entries.length → ∀ fs ∈ buf.stores, ∀ i, i < entries.length →
          entries.length - i ≤ M →
          fs.2[i % M]? = (entries[i]?).map (fun e => lookupD e fs.1)))
    ∧ (∀ buf : Buffer Nat,
        List.foldlM (fun b e => Buffer.add b e) (freshBuffer Nat 4 [obsField])
            [[(obsField, 1)], [(obsField, 2)], [(obsField, 3)], [(obsField, 4)],
              [(obsField, 5)]]
          = .ok buf →
        buf.stores = [(obsField, [5, 2, 3, 4])] ∧ buf.len = 4 ∧
        (lookupD buf.allSamples obsField).toFinset = ({2, 3, 4, 5} : Finset Nat)) := by
  constructor
  · intro M fields entries buf hM hv h
    rw [foldlM_add_eq entries (freshBuffer Nat M fields)
        (by simpa [freshBuffer] using hM)
        (by simpa [freshBuffer] using hM)
        (by simp [freshBuffer])
        (by intro e he; rw [fields_fresh]; exact hv e he)] at h
    injection h with h2
    subst h2
    refine ⟨?_, ?_, ?_⟩
    · simp [Buffer.len, freshBuffer]
    · simp [freshBuffer]
    · intro hMN fs hfs i hi hle
      simp only [freshBuffer, List.map_map, List.mem_map] at hfs
      obtain ⟨f, _, rfl⟩ := hfs
      simp only [Function.comp_apply]
      have hlenv : (entries.map (fun e => lookupD e f)).length = entries.length :=
        List.length_map entries _
      have hlast := writeWrap_lastM M (by omega) (entries.map (fun e => lookupD e f))
        (List.replicate M default) (by simp) i (by rw [hlenv]; omega) (by rw [hlenv]; omega)
      exact hlast.trans (by simp)
  · intro buf h
    rw [show List.foldlM (fun b e => Buffer.add b e) (freshBuffer Nat 4 [obsField])
          [[(obsField, 1)], [(obsField, 2)], [(obsField, 3)], [(obsField, 4)],
            [(obsField, 5)]]
        = .ok (Buffer.mk 4 [(obsField, [5, 2, 3, 4])] 4 1) from rfl] at h
    injection h with h2
    subst h2
    exact ⟨rfl, rfl, by decide⟩

/-- Claim C1, witness: the invariant applied at maxsize 4 with the obs
schema and values 1,2,3,4,5 inserted one at a time. -/
theorem C1_ring_invariant_witness :
    scenarioBuf.len = min 5 4 ∧ scenarioBuf.cursor = 5 % 4 := by
  have h := C1_ring_invariant.1 4 [obsField]
    [[(obsField, 1)], [(obsField, 2)], [(obsField, 3)], [(obsField, 4)], [(obsField, 5)]]
    scenarioBuf (by omega) (by decide) rfl
  exact ⟨h.1, h.2.1⟩

/-! ## Claims C4, C6, C7, C8: sampling, degenerate buffers, schema errors,
all_samples -/

theorem add_schema_error {α : Type} [Inhabited α] (buf : Buffer α) (e : List (String × α))
    (h : ¬ validEntry buf.fields e = true) : buf.add e = .error .schemaMismatch := by
  unfold Buffer.add
  rw [if_neg h]

theorem addBatch_schema_error {α : Type} [Inhabited α] (buf : Buffer α)
    (entries : List (List (String × α)))
    (h : ¬ entries.all (fun e => validEntry buf.fields e) = true) :
    buf.addBatch entries = .error .schemaMismatch := by
  unfold Buffer.addBatch
  rw [if_neg h]

theorem writeWrap_take {α : Type} (M : Nat) (hM : 0 < M) (vals stor : List α)
    (hstor : stor.length = M) (hK : vals.length ≤ M) :
    (writeWrap M 0 vals stor).take vals.length = vals := by
  apply List.ext_getElem?
  intro i
  rw [List.getElem?_take]
  by_cases hi : i < vals.length
  · rw [if_pos hi]
    have h := writeWrap_lastM M hM vals stor hstor i hi (by omega)
    rw [Nat.mod_eq_of_lt (by omega)] at h
    exact h
  · rw [if_neg hi]
    exact (List.getElem?_eq_none (by omega)).symm

/-- Claim C4: two `sample` calls with the same seed on buffers with
identical content (same stores, same size) return identical batches for
every declared field; the drawn indices depend only on the explicit
generator state and the buffer content. -/
theorem C4_sampling_determinism (b1 b2 : Buffer Nat) (batchSize g : Nat)
    (hpos : 1 ≤ b1.size) (hst : b1.stores = b2.stores) (hsz : b1.size = b2.size) :
    b1.sample batchSize g = b2.sample batchSize g := by
  unfold Buffer.sample
  rw [hst, hsz]

/-- Claim C4, witness: identical contents with different cursors sample
identically. -/
theorem C4_sampling_determinism_witness :
    (Buffer.mk 2 [(obsField, [7, 8])] 2 0).sample 3 5
      = (Buffer.mk 2 [(obsField, [7, 8])] 2 1).sample 3 5 :=
  C4_sampling_determinism _ _ 3 5 (by decide) rfl rfl

/-- Claim C6: sampling from a buffer with size 0 fails with
`EmptyBufferError`; a maxsize-0 buffer is valid, accepts schema-valid
`add` calls as no-ops, and any reachable maxsize-0 buffer has length 0. -/
theorem C6_degenerate_buffers :
    (∀ (buf : Buffer Nat) (batchSize g : Nat), buf.size = 0 →
        buf.sample batchSize g = .error .emptyBuffer)
    ∧ (∀ fields : List String, (freshBuffer Nat 0 fields).len = 0)
    ∧ (∀ (buf : Buffer Nat) (e : List (String × Nat)), buf.maxsize = 0 →
        validEntry buf.fields e = true → buf.add e = .ok buf)
    ∧ (∀ buf : Buffer Nat, Reachable buf → buf.maxsize = 0 → buf.len = 0) := by
  refine ⟨?_, ?_, ?_, ?_⟩
  · intro buf batchSize g h
    unfold Buffer.sample
    rw [if_pos h]
  · intro fields
    rfl
  · intro buf e hm hv
    unfold Buffer.add
    rw [if_pos hv, if_pos hm]
  · intro buf hr hm
    obtain ⟨_, _, hz, _⟩ := reachable_wf hr
    exact (hz hm).2

/-- Claim C6, witness: sampling an empty buffer errors; a maxsize-0
buffer accepts an `add` as a no-op. -/
theorem C6_degenerate_buffers_witness :
    (freshBuffer Nat 5 [obsField]).sample 3 42 = .error .emptyBuffer ∧
    (freshBuffer Nat 0 [obsField]).add [(obsField, 1)] = .ok (freshBuffer Nat 0 [obsField]) :=
  ⟨C6_degenerate_buffers.1 _ 3 42 rfl,
   C6_degenerate_buffers.2.2.1 _ [(obsField, 1)] rfl (by decide)⟩

/-- Claim C7: inserting an entry missing a declared field or containing
an undeclared field fails with `SchemaMismatchError`, for `add` and for
`add_batch`; `add_batch` validates before any write, so on failure the
buffer (storage, size and cursor) is exactly as before the call. -/
theorem C7_schema_mismatch_atomicity :
    (∀ (buf : Buffer Nat) (e : List (String × Nat)),
        validEntry buf.fields e = false → buf.add e = .error .schemaMismatch)
    ∧ (∀ (buf : Buffer Nat) (e : List (String × Nat)) (f : String),
        f ∈ buf.fields → hasKey e f = false → buf.add e = .error .schemaMismatch)
    ∧ (∀ (buf : Buffer Nat) (e : List (String × Nat)) (p : String × Nat),
        p ∈ e → buf.fields.contains p.1 = false → buf.add e = .error .schemaMismatch)
    ∧ (∀ (buf : Buffer Nat) (entries : List (List (String × Nat))) (e : List (String × Nat)),
        e ∈ entries → validEntry buf.fields e = false →
        buf.addBatch entries = .error .schemaMismatch ∧ buf.addBatchRun entries = buf) := by
  refine ⟨?_, ?_, ?_, ?_⟩
  · intro buf e hv
    exact add_schema_error buf e (by rw [hv]; exact Bool.false_ne_true)
  · intro buf e f hf hk
    apply add_schema_error buf e
    intro hval
    simp only [validEntry, Bool.and_eq_true, List.all_eq_true] at hval
    have := hval.1 f hf
    rw [hk] at this
    exact Bool.noConfusion this
  · intro buf e p hp hc
    apply add_schema_error buf e
    intro hval
    simp only [validEntry, Bool.and_eq_true, List.all_eq_true] at hval
    have := hval.2 p hp
    rw [hc] at this
    exact Bool.noConfusion this
  · intro buf entries e he hv
    have hall : ¬ entries.all (fun e2 => validEntry buf.fields e2) = true := by
      rw [List.all_eq_true]
      intro hforall
      have := hforall e he
      rw [hv] at this
      exact Bool.noConfusion this
    have herr := addBatch_schema_error buf entries hall
    refine ⟨herr, ?_⟩
    unfold Buffer.addBatchRun
    rw [herr]

/-- Claim C7, witness: an entry missing the declared field errors. -/
theorem C7_schema_mismatch_atomicity_witness :
    (freshBuffer Nat 2 [obsField]).add [] = .error .schemaMismatch :=
  C7_schema_mismatch_atomicity.1 _ [] (by decide)

/-- Claim C8: `all_samples()` returns exactly `size` entries for every
declared field; for a buffer that never exceeded its maxsize these are
the inserted values in insertion order; once the buffer has wrapped
(at least maxsize insertions) it returns the raw physical storage,
cursor-position-independently, without reconstructing logical order. -/
theorem C8_all_samples :
    (∀ buf : Buffer Nat, Reachable buf → ∀ fs ∈ buf.allSamples, fs.2.length = buf.len)
    ∧ (∀ (M : Nat) (fields : List String) (entries : List (List (String × Nat)))
         (buf : Buffer Nat),
        1 ≤ M → entries.length ≤ M →
        (∀ e ∈ entries, validEntry fields e = true) →
        List.foldlM (fun b e => Buffer.add b e) (freshBuffer Nat M fields) entries = .ok buf →
        buf.allSamples = fields.map (fun f => (f, entries.map (fun e => lookupD e f))))
    ∧ (∀ (M : Nat) (fields : List String) (entries : List (List (String × Nat)))
         (buf : Buffer Nat),
        1 ≤ M → M ≤ entries.length →
        (∀ e ∈ entries, validEntry fields e = true) →
        List.foldlM (fun b e => Buffer.add b e) (freshBuffer Nat M fields) entries = .ok buf →
        buf.allSamples = buf.stores)
    ∧ (∀ b1 b2 : Buffer Nat, b1.stores = b2.stores → b1.size = b2.size →
        b1.allSamples = b2.allSamples) := by
  refine ⟨?_, ?_, ?_, ?_⟩
  · intro buf hr fs hfs
    obtain ⟨hlen, hsz, _, _⟩ := reachable_wf hr
    simp only [Buffer.allSamples, List.mem_map] at hfs
    obtain ⟨fs0, hfs0, rfl⟩ := hfs
    simp only [List.length_take, Buffer.len]
    rw [hlen fs0 hfs0]
    omega
  · intro M fields entries buf hM hLe hv h
    rw [foldlM_add_eq entries _ (by simpa [freshBuffer] using hM)
        (by simpa [freshBuffer] using hM) (by simp [freshBuffer])
        (by intro e he; rw [fields_fresh]; exact hv e he)] at h
    injection h with h2
    subst h2
    simp only [Buffer.allSamples, freshBuffer, List.map_map]
    apply List.map_congr_left
    intro f _
    simp only [Function.comp_apply]
    congr 1
    have hlenv : (entries.map (fun e => lookupD e f)).length = entries.length :=
      List.length_map entries _
    rw [show min (0 + entries.length) M = (entries.map (fun e => lookupD e f)).length from
      by rw [hlenv]; omega]
    exact writeWrap_take M (by omega) _ _ (by simp) (by rw [hlenv]; omega)
  · intro M fields entries buf hM hGe hv h
    rw [foldlM_add_eq entries _ (by simpa [freshBuffer] using hM)
        (by simpa [freshBuffer] using hM) (by simp [freshBuffer])
        (by intro e he; rw [fields_fresh]; exact hv e he)] at h
    injection h with h2
    subst h2
    simp only [Buffer.allSamples]
    have hmap : ∀ fs ∈ ((freshBuffer Nat M fields).stores.map (fun fs =>
        (fs.1, writeWrap (freshBuffer Nat M fields).maxsize (freshBuffer Nat M fields).cursor
                 (entries.map fun e => lookupD e fs.1) fs.2))),
        (fs.1, fs.2.take (min ((freshBuffer Nat M fields).size + entries.length)
          (freshBuffer Nat M fields).maxsize)) = id fs := by
      intro fs hfs
      simp only [freshBuffer, List.map_map, List.mem_map] at hfs
      obtain ⟨f, _, rfl⟩ := hfs
      simp only [Function.comp_apply, id]
      congr 1
      rw [show min ((freshBuffer Nat M fields).size + entries.length)
            (freshBuffer Nat M fields).maxsize = M from by simp [freshBuffer]; omega]
      apply List.take_of_length_le
      rw [writeWrap_length]
      simp
    rw [List.map_congr_left hmap, List.map_id]
  · intro b1 b2 hst hsz
    unfold Buffer.allSamples
    rw [hst, hsz]

/-- Claim C8, witness: one insertion into a fresh maxsize-3 buffer is
returned by `all_samples` in insertion order. -/
theorem C8_all_samples_witness :
    (Buffer.mk 3 [(obsField, [9, 0, 0])] 1 1).allSamples = [(obsField, [9])] :=
  C8_all_samples.2.1 3 [obsField] [[(obsField, 9)]] _ (by decide) (by decide)
    (by decide) rfl

/-! ## Claims C3, C5: Polyak target synchronization -/

theorem zipWith_getElem_some {α β γ : Type} (f : α → β → γ) :
    ∀ (as2 : List α) (bs : List β) (i : Nat) (a : α) (b : β),
      as2[i]? = some a → bs[i]? = some b → (List.zipWith f as2 bs)[i]? = some (f a b) := by
  intro as2
  induction as2 with
  | nil =>
    intro bs i a b ha _
    simp at ha
  | cons x xs ih =>
    intro bs i a b ha hb
    cases bs with
    | nil => simp at hb
    | cons y ys =>
      cases i with
      | zero =>
        simp only [List.getElem?_cons_zero, Option.some.injEq] at ha hb
        subst ha
        subst hb
        simp [List.zipWith_cons_cons]
      | succ n =>
        simp only [List.getElem?_cons_succ] at ha hb
        simpa only [List.zipWith_cons_cons, List.getElem?_cons_succ] using ih ys n a b ha hb

theorem zipWith_one_eq_left :
    ∀ (l t : List Rat), l.length = t.length →
      List.zipWith (fun x y => (1 : Rat) * x + (1 - 1) * y) l t = l := by
  intro l
  induction l with
  | nil => intro t _; rfl
  | cons x xs ih =>
    intro t h
    cases t with
    | nil => simp at h
    | cons y ys =>
      simp only [List.zipWith_cons_cons]
      congr 1
      · ring
      · exact ih ys (by simpa using h)

theorem polyakUpdate_one :
    ∀ (live target : List (List Rat)),
      live.map List.length = target.map List.length →
      polyakUpdate 1 live target = live := by
  intro live
  induction live with
  | nil => intro target _; rfl
  | cons l ls ih =>
    intro target h
    cases target with
    | nil => simp at h
    | cons t ts =>
      simp only [List.map_cons, List.cons.injEq] at h
      show List.zipWith _ (l :: ls) (t :: ts) = l :: ls
      simp only [List.zipWith_cons_cons]
      congr 1
      · exact zipWith_one_eq_left l t h.1
      · exact ih ts h.2

theorem foldl_syncStep_no_polyak :
    ∀ (ops : List SyncOp) (s : SyncState),
      (∀ op ∈ ops, op.isPolyak = false) → (ops.foldl syncStep s).target = s.target := by
  intro ops
  induction ops with
  | nil => intro s _; rfl
  | cons op ops ih =>
    intro s h
    rw [List.foldl_cons]
    cases op with
    | gradStep f =>
      rw [ih _ (fun o ho => h o (by simp [ho]))]
      rfl
    | polyak tau =>
      have hop := h (.polyak tau) (by simp)
      simp [SyncOp.isPolyak] at hop

/-- Claim C3: `update(live, target, tau)` with `tau` in (0,1] sets every
positionally matching target parameter, element-wise, to
`tau * p_live + (1 - tau) * p_target`; `tau = 1` is an exact hard copy;
and in the synchronizer only the Polyak update ever writes the target
parameters — a gradient step leaves them untouched, and the update is a
deterministic function of the previous target, the current live values
and the coefficient. -/
theorem C3_polyak_update :
    (∀ (tau : Rat) (live target : List (List Rat)) (i j : Nat)
        (pl pt : List Rat) (x y : Rat),
        0 < tau → tau ≤ 1 →
        live[i]? = some pl → target[i]? = some pt →
        pl[j]? = some x → pt[j]? = some y →
        ∃ p, (polyakUpdate tau live target)[i]? = some p ∧
          p[j]? = some (tau * x + (1 - tau) * y))
    ∧ (∀ live target : List (List Rat),
        live.map List.length = target.map List.length →
        polyakUpdate 1 live target = live)
    ∧ (∀ (s : SyncState) (f : List (List Rat) → List (List Rat)),
        (syncStep s (.gradStep f)).target = s.target)
    ∧ (∀ (s : SyncState) (tau : Rat),
        (syncStep s (.polyak tau)).target = polyakUpdate tau s.live s.target) := by
  refine ⟨?_, polyakUpdate_one, ?_, ?_⟩
  · intro tau live target i j pl pt x y _ _ hl ht hx hy
    refine ⟨pl.zipWith (fun x y => tau * x + (1 - tau) * y) pt, ?_, ?_⟩
    · exact zipWith_getElem_some _ live target i pl pt hl ht
    · exact zipWith_getElem_some _ pl pt j x y hx hy
  · intro s f
    rfl
  · intro s tau
    rfl

/-- Claim C3, witness: the Polyak rule at tau = 1/2 on one scalar
parameter. -/
theorem C3_polyak_update_witness :
    ∃ p, (polyakUpdate (1 / 2) [[4]] [[2]])[0]? = some p ∧
      p[0]? = some ((1 / 2) * 4 + (1 - 1 / 2) * 2) :=
  C3_polyak_update.1 (1 / 2) [[4]] [[2]] 0 0 [4] [2] 4 2 (by norm_num) (by norm_num)
    rfl rfl rfl rfl

/-- Claim C5: at construction (`make_module`) the target critic ensemble
is an exact copy of the live critic ensemble — same count, same shapes,
equal values — and it stays frozen at that initial copy under any
sequence of operations that contains no Polyak update (in particular,
gradient steps never modify target parameters). -/
theorem C5_target_init (clippedDoubleQ : Bool) (mkCritic : Nat → List (List Rat))
    (hshape : ∀ i, paramShapes (mkCritic i) = paramShapes (mkCritic 0)) :
    (makeModule clippedDoubleQ mkCritic).targetCritics
        = (makeModule clippedDoubleQ mkCritic).critics ∧
    (makeModule clippedDoubleQ mkCritic).targetCritics.length
        = (makeModule clippedDoubleQ mkCritic).critics.length ∧
    criticShapes (makeModule clippedDoubleQ mkCritic).targetCritics
        = criticShapes (makeModule clippedDoubleQ mkCritic).critics ∧
    (∀ ops : List SyncOp, (∀ op ∈ ops, op.isPolyak = false) →
      (ops.foldl syncStep
        { live := (makeModule clippedDoubleQ mkCritic).critics.flatten
          target := (makeModule clippedDoubleQ mkCritic).targetCritics.flatten }).target
        = (makeModule clippedDoubleQ mkCritic).critics.flatten) := by
  have hload : (makeModule clippedDoubleQ mkCritic).targetCritics
      = (makeModule clippedDoubleQ mkCritic).critics := by
    unfold makeModule loadCritics
    cases clippedDoubleQ <;>
      simp [criticShapes, hshape 1, hshape 2, hshape 3]
  refine ⟨hload, by rw [hload], by rw [hload], ?_⟩
  intro ops hops
  rw [foldl_syncStep_no_polyak ops _ hops]
  simp only
  rw [hload]

/-- Claim C5, witness: with clipped double Q and identically shaped
critics, targets are an exact copy at construction. -/
theorem C5_target_init_witness :
    (makeModule true (fun _ => [[1, 2]])).targetCritics
      = (makeModule true (fun _ => [[1, 2]])).critics :=
  (C5_target_init true (fun _ => [[1, 2]]) (fun _ => rfl)).1

/-! ## Claim C9: SOP critic targets -/

theorem zip3With_getElem_some {α β γ δ : Type} (f : α → β → γ → δ) :
    ∀ (as2 : List α) (bs : List β) (cs : List γ) (i : Nat) (a : α) (b : β) (c : γ),
      as2[i]? = some a → bs[i]? = some b → cs[i]? = some c →
      (zip3With f as2 bs cs)[i]? = some (f a b c) := by
  intro as2
  induction as2 with
  | nil =>
    intro bs cs i a b c ha _ _
    simp at ha
  | cons x xs ih =>
    intro bs cs i a b c ha hb hc
    cases bs with
    | nil => simp at hb
    | cons y ys =>
      cases cs with
      | nil => simp at hc
      | cons z zs =>
        cases i with
        | zero =>
          simp only [List.getElem?_cons_zero, Option.some.injEq] at ha hb hc
          subst ha
          subst hb
          subst hc
          simp [zip3With]
        | succ n =>
          simp only [List.getElem?_cons_succ] at ha hb hc
          simpa only [zip3With, List.getElem?_cons_succ] using ih ys zs n a b c ha hb hc

theorem foldl_min_le_init : ∀ (xs : List Rat) (x : Rat), xs.foldl min x ≤ x := by
  intro xs
  induction xs with
  | nil => intro x; exact le_refl x
  | cons y ys ih => intro x; exact le_trans (ih (min x y)) (min_le_left x y)

theorem foldl_min_le_mem : ∀ (xs : List Rat) (x w : Rat), w ∈ xs → xs.foldl min x ≤ w := by
  intro xs
  induction xs with
  | nil =>
    intro x w hw
    simp at hw
  | cons y ys ih =>
    intro x w hw
    rcases List.mem_cons.mp hw with rfl | hw2
    · exact le_trans (foldl_min_le_init ys (min x w)) (min_le_right x w)
    · exact ih (min x y) w hw2

theorem foldl_min_mem :
    ∀ (xs : List Rat) (x : Rat), xs.foldl min x = x ∨ xs.foldl min x ∈ xs := by
  intro xs
  induction xs with
  | nil => intro x; exact Or.inl rfl
  | cons y ys ih =>
    intro x
    rcases ih (min x y) with h | h
    · rcases min_choice x y with hc | hc
      · left
        rw [List.foldl_cons, h, hc]
      · right
        rw [List.foldl_cons, h, hc]
        exact List.mem_cons_self y ys
    · right
      exact List.mem_cons_of_mem y h

theorem rowMin_mem (xs : List Rat) (h : xs ≠ []) : rowMin xs ∈ xs := by
  cases xs with
  | nil => exact absurd rfl h
  | cons x ys =>
    show List.foldl min x ys ∈ x :: ys
    rcases foldl_min_mem ys x with h2 | h2
    · rw [h2]
      exact List.mem_cons_self x ys
    · exact List.mem_cons_of_mem x h2

theorem rowMin_le (xs : List Rat) (w : Rat) (hw : w ∈ xs) : rowMin xs ≤ w := by
  cases xs with
  | nil => simp at hw
  | cons x ys =>
    show List.foldl min x ys ≤ w
    rcases List.mem_cons.mp hw with rfl | h2
    · exact foldl_min_le_init ys w
    · exact foldl_min_le_mem ys x w h2

/-- Claim C9: per transition, `_compute_critic_targets` returns exactly
the reward when the done flag is set, and otherwise the reward plus
gamma times the minimum over all target critics of
`Q(next_obs, target_policy(next_obs))` — terminal transitions never
bootstrap, and clipped double Q takes the ensemble minimum. -/
theorem C9_critic_targets {O A : Type} (gamma : Rat) (pol : O → A)
    (critics : List (O → A → Rat)) (rewards : List Rat) (nextObs : List O)
    (dones : List Bool) (i : Nat) (r : Rat) (o : O) (d : Bool)
    (hcne : critics ≠ [])
    (hr : rewards[i]? = some r) (ho : nextObs[i]? = some o) (hd : dones[i]? = some d) :
    ∃ v, (computeCriticTargets gamma pol critics rewards nextObs dones)[i]?
          = some (if d then r else r + gamma * v) ∧
        v ∈ critics.map (fun m => m o (pol o)) ∧
        (∀ w ∈ critics.map (fun m => m o (pol o)), v ≤ w) := by
  refine ⟨rowMin (critics.map fun m => m o (pol o)), ?_, ?_, ?_⟩
  · have hacts : (nextObs.map pol)[i]? = some (pol o) := by
      rw [List.getElem?_map, ho]
      rfl
    have hcat : (catCriticVals critics nextObs (nextObs.map pol))[i]?
        = some (critics.map fun m => m o (pol o)) :=
      zipWith_getElem_some _ nextObs (nextObs.map pol) i o (pol o) ho hacts
    have hvals : ((catCriticVals critics nextObs (nextObs.map pol)).map rowMin)[i]?
        = some (rowMin (critics.map fun m => m o (pol o))) := by
      rw [List.getElem?_map, hcat]
      rfl
    have hboot : (List.zipWith (fun r2 v => r2 + gamma * v) rewards
        ((catCriticVals critics nextObs (nextObs.map pol)).map rowMin))[i]?
        = some (r + gamma * rowMin (critics.map fun m => m o (pol o))) :=
      zipWith_getElem_some _ rewards _ i r _ hr hvals
    exact zip3With_getElem_some _ dones rewards _ i d r _ hd hr hboot
  · exact rowMin_mem _ (by simpa using hcne)
  · intro w hw
    exact rowMin_le _ w hw

/-- Claim C9, witness: one non-terminal transition with a single target
critic. -/
theorem C9_critic_targets_witness :
    ∃ v, (computeCriticTargets 1 (fun _ : Unit => ()) [fun _ _ => (5 : Rat)]
            [2] [()] [false])[0]?
          = some (if false then (2 : Rat) else 2 + 1 * v) ∧
        v ∈ [fun _ _ => (5 : Rat)].map (fun m => m () ()) ∧
        (∀ w ∈ [fun _ _ => (5 : Rat)].map (fun m => m () ()), v ≤ w) :=
  C9_critic_targets 1 (fun _ => ()) [fun _ _ => (5 : Rat)] [2] [()] [false] 0 2 () false
    (List.cons_ne_nil _ _) rfl rfl rfl

/-! ## Claim C10: trajectory postprocessing -/

theorem getElem?_length_sub_one {α : Type} (l : List α) (d : α) (h : l ≠ []) :
    l[l.length - 1]? = some (l.getLastD d) := by
  have hlen : 0 < l.length := List.length_pos.mpr h
  rw [List.getLastD_eq_getLast?, List.getLast?_eq_getElem?]
  cases hx : l[l.length - 1]? with
  | none =>
    have := List.getElem?_eq_none_iff.mp hx
    omega
  | some x => rfl

/-- Claim C10: `postprocess_trajectory` modifies at most the final done
flag — set to False exactly when the env is not time-aware and the final
info dict reports a truthy `TimeLimit.truncated`, kept at the
environment's final done value otherwise — and leaves every other field
and every non-final entry unchanged. -/
theorem C10_postprocess {ε : Type} (timeAware : Bool) (b : SampleBatch ε)
    (hne : b.dones ≠ []) :
    (postprocessTrajectory timeAware b).rest = b.rest ∧
    (postprocessTrajectory timeAware b).infos = b.infos ∧
    (postprocessTrajectory timeAware b).dones.length = b.dones.length ∧
    (∀ i, i + 1 < b.dones.length →
      (postprocessTrajectory timeAware b).dones[i]? = b.dones[i]?) ∧
    (postprocessTrajectory timeAware b).dones[b.dones.length - 1]?
      = some (if timeAware = false
                ∧ (b.infos.getLast?.map StepInfo.timeLimitTruncated).getD false = true
              then false else b.dones.getLastD false) := by
  have hlen : 0 < b.dones.length := List.length_pos.mpr hne
  cases timeAware with
  | false =>
    unfold postprocessTrajectory
    rw [if_pos rfl]
    refine ⟨rfl, rfl, by simp, ?_, ?_⟩
    · intro i hi
      exact List.getElem?_set_ne (by omega)
    · rw [List.getElem?_set_self (by omega)]
      cases hhit : (b.infos.getLast?.map StepInfo.timeLimitTruncated).getD false <;>
        simp [hhit]
  | true =>
    unfold postprocessTrajectory
    rw [if_neg (by simp)]
    refine ⟨rfl, rfl, rfl, fun i _ => rfl, ?_⟩
    rw [getElem?_length_sub_one b.dones false hne]
    simp

/-- Claim C10, witness: a one-step truncated batch gets its final done
flag cleared; every other field is unchanged. -/
theorem C10_postprocess_witness :
    (postprocessTrajectory false (SampleBatch.mk [true] [StepInfo.mk true] (7 : Nat))).rest = 7 ∧
    (postprocessTrajectory false
        (SampleBatch.mk [true] [StepInfo.mk true] (7 : Nat))).dones[0]? = some false := by
  have h := C10_postprocess false (SampleBatch.mk [true] [StepInfo.mk true] (7 : Nat))
    (by simp)
  exact ⟨h.1, h.2.2.2.2.trans (by decide)⟩

end Raylab
